import Mathlib

/-!
Verification of the trivia-rubric extraction pipeline (`trivia_rubric.py`).

The pipeline is shallowly embedded over `List Char` / `String`:
tokenizer (`_strings_from_stream`), printable filter (`_is_mostly_printable`),
sanitizer (`sanitize`, the text-normalisation part of `extract_text`),
round segmentation (`parse_rounds`), question/answer parsing
(`_parse_questions`, `extract_answer`, `clean_answer`).

Loops whose scan index advances by a data-dependent amount are embedded with
an explicit fuel parameter (the wrappers pass `length + 1`, which is always
sufficient since every iteration consumes at least one character); a
fuel-independence theorem is proved for the tokenizer.

Regular expressions from the source are unfolded into their deterministic
leftmost-match semantics on the ASCII text this program manipulates
(the character classes `\s`, `\d`, `\w` are embedded at their ASCII
denotations; every string reaching these matchers has been filtered to
printable ASCII plus tab/CR/LF by `extract_text`).
-/

/-- ASCII lowercase conversion, used for the `re.IGNORECASE` comparisons. -/
def asciiLower (c : Char) : Char :=
  if 'A' ≤ c ∧ c ≤ 'Z' then Char.ofNat (c.toNat + 32) else c

/-- ASCII decimal digit, denotation of `\d`. -/
def isPyDigit (c : Char) : Bool := '0' ≤ c && c ≤ '9'

/-- ASCII whitespace, denotation of `\s` (and of `str.strip`). -/
def isPySpace (c : Char) : Bool :=
  c == ' ' || c == '\t' || c == '\n' || c == '\r' || c == '\x0b' || c == '\x0c'

/-- ASCII word character, denotation of `\w` (used for `\b` boundaries). -/
def isWordChar (c : Char) : Bool :=
  isPyDigit c || ('a' ≤ c && c ≤ 'z') || ('A' ≤ c && c ≤ 'Z') || c == '_'

/-- Case-insensitive literal match: drops `pat` from the front of `s`
(comparing ASCII-lowercased characters), returning the remainder. -/
def dropCI : List Char → List Char → Option (List Char)
  | [], s => some s
  | _ :: _, [] => none
  | p :: ps, c :: cs => if asciiLower c == asciiLower p then dropCI ps cs else none

/-! ## LiteralStringTokenizer (`_strings_from_stream`) -/

/-- The simple escape table of `_strings_from_stream`
(the `mapping` dict for `\n \r \t \b \f \( \) \\`). -/
def escMap (c : Char) : Option Char :=
  if c == 'n' then some '\n'
  else if c == 'r' then some '\r'
  else if c == 't' then some '\t'
  else if c == 'b' then some '\x08'
  else if c == 'f' then some '\x0c'
  else if c == '(' then some '('
  else if c == ')' then some ')'
  else if c == '\\' then some '\\'
  else none

/-- Octal digit test (`"0" <= nxt <= "7"`). -/
def isOctalDigit (c : Char) : Bool := '0' ≤ c && c ≤ '7'

/-- Numeric value of an octal digit. -/
def octVal (c : Char) : Nat := c.toNat - 48

/-- The inner loop of `_strings_from_stream`: scans one literal-string token.
`depth` starts at 1; an unescaped `)` at depth 1 closes the token (the `)`
is not emitted) and returns the remaining input.  Escapes: the table
`escMap` (2 chars), greedy 1–3 octal digits, or fallback (backslash
dropped).  Reaching the end of input emits whatever has been accumulated.
The fuel parameter decreases once per loop iteration; every iteration
consumes at least one character, so `content.length` fuel suffices. -/
def scanToken : Nat → List Char → Nat → List Char → String × List Char
  | _, [], _, acc => (⟨acc.reverse⟩, [])
  | 0, content, _, acc => (⟨acc.reverse⟩, content)
  | fuel + 1, ch :: rest, depth, acc =>
    if ch == '\\' then
      match rest with
      | [] => (⟨(ch :: acc).reverse⟩, [])
      | nxt :: rest2 =>
        match escMap nxt with
        | some e => scanToken fuel rest2 depth (e :: acc)
        | none =>
          if isOctalDigit nxt then
            match rest2 with
            | [] => (⟨(Char.ofNat (octVal nxt) :: acc).reverse⟩, [])
            | d2 :: rest3 =>
              if isOctalDigit d2 then
                match rest3 with
                | [] => (⟨(Char.ofNat (octVal nxt * 8 + octVal d2) :: acc).reverse⟩, [])
                | d3 :: rest4 =>
                  if isOctalDigit d3 then
                    scanToken fuel rest4 depth
                      (Char.ofNat (octVal nxt * 64 + octVal d2 * 8 + octVal d3) :: acc)
                  else
                    scanToken fuel rest3 depth (Char.ofNat (octVal nxt * 8 + octVal d2) :: acc)
              else scanToken fuel rest2 depth (Char.ofNat (octVal nxt) :: acc)
          else scanToken fuel rest2 depth (nxt :: acc)
    else if ch == '(' then
      scanToken fuel rest (depth + 1) (ch :: acc)
    else if ch == ')' then
      if depth == 1 then (⟨acc.reverse⟩, rest)
      else scanToken fuel rest (depth - 1) (ch :: acc)
    else scanToken fuel rest depth (ch :: acc)

/-- The outer loop of `_strings_from_stream`: skips to the next `(` and
scans a token there. -/
def streamTokens : Nat → List Char → List String
  | _, [] => []
  | 0, _ => []
  | fuel + 1, c :: rest =>
    if c == '(' then
      let r := scanToken (rest.length + 1) rest 1 []
      r.1 :: streamTokens fuel r.2
    else streamTokens fuel rest

/-- `_strings_from_stream`: all literal-string tokens of one decompressed
content stream. -/
def _strings_from_stream (content : List Char) : List String :=
  streamTokens (content.length + 1) content

/-! ## TextSanitizer (`_is_mostly_printable` and the body of `extract_text`) -/

/-- Printable for this program: printable ASCII or tab/CR/LF. -/
def keepPrintable (c : Char) : Bool :=
  (32 ≤ c.toNat && c.toNat ≤ 126) || c == '\t' || c == '\r' || c == '\n'

/-- `_is_mostly_printable`: at least 80% printable characters, or all of
them.  `int(len(token) * 0.8)` equals `4 * len / 5` (floor) for every
feasible length, since `0.8`'s float rounding error never crosses an
integer boundary at the scale of real token lengths. -/
def _is_mostly_printable (token : String) : Bool :=
  if token.data.isEmpty then false
  else
    let printable := (token.data.filter keepPrintable).length
    decide (4 * token.data.length / 5 ≤ printable) || printable == token.data.length

/-- `combined.replace("en-US", " ")`: left-to-right non-overlapping
replacement of the locale-marker artifact by one space. -/
def replaceEnUS : List Char → List Char
  | [] => []
  | 'e' :: 'n' :: '-' :: 'U' :: 'S' :: rest => ' ' :: replaceEnUS rest
  | c :: rest => c :: replaceEnUS rest

/-- `re.sub(r"\s+", " ", s)`: every maximal whitespace run becomes a single
space.  The flag records that the current position is inside a run whose
replacement space has already been emitted. -/
def collapseWs : List Char → Bool → List Char
  | [], _ => []
  | c :: rest, inRun =>
    if isPySpace c then
      if inRun then collapseWs rest true else ' ' :: collapseWs rest true
    else c :: collapseWs rest false

/-- `str.strip()`: drop ASCII whitespace from both ends. -/
def pyStrip (l : List Char) : List Char :=
  ((l.dropWhile isPySpace).reverse.dropWhile isPySpace).reverse

/-- The sanitization body of `extract_text`: keep printable characters,
erase the "en-US" artifact, turn CR and LF into spaces, collapse
whitespace runs, and trim. -/
def sanitize (s : String) : String :=
  let l1 := s.data.filter keepPrintable
  let l2 := replaceEnUS l1
  let l3 := l2.map fun c => if c == '\r' then ' ' else c
  let l4 := l3.map fun c => if c == '\n' then ' ' else c
  ⟨pyStrip (collapseWs l4 false)⟩

/-- `extract_text`, from the decompressed content streams onward: tokenize
every stream, keep the mostly-printable tokens, concatenate, sanitize.
(The PDF container scanning and zlib decompression that produce the
streams are I/O collaborators outside this embedding.) -/
def extract_text (blocks : List String) : String :=
  let strings := ((blocks.map fun b => _strings_from_stream b.data).flatten).filter
    fun t => _is_mostly_printable t
  sanitize (String.join strings)

/-! ## RoundSegmenter (`parse_rounds`) -/

/-- Lowercased literal `round`. -/
def roundWord : List Char := ['r', 'o', 'u', 'n', 'd']

/-- Lowercased literal `tiebreakers`. -/
def tbWord : List Char := ['t', 'i', 'e', 'b', 'r', 'e', 'a', 'k', 'e', 'r', 's']

/-- Match `Round\s+\d+:` (case-insensitive) at the head of `s`, returning the
remainder.  `\s+` and `\d+` are greedy; the classes are disjoint from the
required follower, so backtracking cannot produce a different match. -/
def headerRem (s : List Char) : Option (List Char) :=
  match dropCI roundWord s with
  | none => none
  | some s1 =>
    match s1 with
    | [] => none
    | c1 :: _ =>
      if isPySpace c1 then
        match s1.dropWhile isPySpace with
        | [] => none
        | c2 :: _ =>
          if isPyDigit c2 then
            match (s1.dropWhile isPySpace).dropWhile isPyDigit with
            | ':' :: r => some r
            | _ => none
          else none
      else none

/-- `Tiebreakers\b` (case-insensitive) matches at the head of `s`. -/
def tbBoundary (s : List Char) : Bool :=
  match dropCI tbWord s with
  | none => false
  | some [] => true
  | some (c :: _) => !isWordChar c

/-- `$` (no `re.MULTILINE`): end of string, or just before a final LF. -/
def atEndDollar (s : List Char) : Bool := s.isEmpty || s == ['\n']

/-- The lookahead `(?=Round\s+\d+:|Tiebreakers\b|$)` holds at `s`. -/
def roundLA (s : List Char) : Bool :=
  (headerRem s).isSome || tbBoundary s || atEndDollar s

/-- Advance to the first suffix (starting with `s` itself) where the round
lookahead holds; the end of the text always satisfies it. -/
def advanceToLA : Nat → List Char → List Char
  | _, [] => []
  | 0, s => s
  | fuel + 1, c :: rest => if roundLA (c :: rest) then c :: rest else advanceToLA fuel rest

/-- `finditer` of `(Round\s+\d+:\s*.*?)(?=Round\s+\d+:|Tiebreakers\b|$)`:
each match starts at a header, `\s*` greedily eats whitespace, and the lazy
`.*?` stops at the first position where the lookahead holds; scanning
resumes at the match end.  Returns the `group(1)` slices in order. -/
def findRoundSections : Nat → List Char → List (List Char)
  | _, [] => []
  | 0, _ => []
  | fuel + 1, c :: rest =>
    match headerRem (c :: rest) with
    | some hrem =>
      let q := hrem.dropWhile isPySpace
      let e := advanceToLA q.length q
      (c :: rest).take ((c :: rest).length - e.length) :: findRoundSections fuel e
    | none => findRoundSections fuel rest

/-- `re.search(r"\b\d+\.", section)`: index of the leftmost question-number
marker — a digit run at a word boundary whose maximal extent is followed by
a dot.  `prevW` is whether the previous character was a word character. -/
def findQStart : List Char → Bool → Nat → Option Nat
  | [], _, _ => none
  | c :: rest, prevW, i =>
    if !prevW && isPyDigit c && ((c :: rest).dropWhile isPyDigit).head? == some '.' then
      some i
    else findQStart rest (isWordChar c) (i + 1)

/-- `re.search(r"\bTiebreakers\b(.*)", text, IGNORECASE | DOTALL)`: find the
leftmost word-bounded occurrence and return everything after it. -/
def findTB : List Char → Bool → Option (List Char)
  | [], _ => none
  | c :: rest, prevW =>
    if !prevW then
      match dropCI tbWord (c :: rest) with
      | some [] => some []
      | some (d :: r) =>
        if isWordChar d then findTB rest (isWordChar c) else some (d :: r)
      | none => findTB rest (isWordChar c)
    else findTB rest (isWordChar c)

/-! ## QuestionAnswerParser (`_parse_questions`, `extract_answer`, `clean_answer`) -/

/-- `int(number_text)` for a decimal digit string. -/
def parseNat (s : String) : Nat :=
  s.data.foldl (fun n c => n * 10 + (c.toNat - 48)) 0

/-- `str.rfind(marker)`: index of the last occurrence, if any. -/
def rfindPos (m : Char) : List Char → Option Nat
  | [] => none
  | c :: rest =>
    match rfindPos m rest with
    | some i => some (i + 1)
    | none => if c == m then some 0 else none

/-- `extract_answer`: trim; if a `?` is present, take the text after the last
`?`; otherwise, if a `!` is present, the text after the last `!` (empty
trailing text means no answer); with neither mark, the whole trimmed
segment is the answer. -/
def extract_answer (segment : String) : Option String :=
  let text := pyStrip segment.data
  if text.isEmpty then none
  else
    match rfindPos '?' text with
    | some pos =>
      let trailing := pyStrip (text.drop (pos + 1))
      if trailing.isEmpty then none else some ⟨trailing⟩
    | none =>
      match rfindPos '!' text with
      | some pos =>
        let trailing := pyStrip (text.drop (pos + 1))
        if trailing.isEmpty then none else some ⟨trailing⟩
      | none => some ⟨text⟩

/-- `NOTE_PATTERN = re.compile(r"\|\s*\(note:.*", IGNORECASE)` matches at the
head of `s`: a bar, greedy whitespace, then the literal `(note:`. -/
def noteStartsHere (s : List Char) : Bool :=
  match s with
  | '|' :: r => (dropCI ['(', 'n', 'o', 't', 'e', ':'] (r.dropWhile isPySpace)).isSome
  | _ => false

/-- `NOTE_PATTERN.split(answer)[0]`: the text before the first note marker. -/
def noteSplit : List Char → List Char
  | [] => []
  | c :: rest => if noteStartsHere (c :: rest) then [] else c :: noteSplit rest

/-- `str.rstrip("|")`: drop trailing bars. -/
def rstripPipe (l : List Char) : List Char :=
  (l.reverse.dropWhile fun c => c == '|').reverse

/-- `re.sub(r"\s*/\s*", " / ", s)`: each slash together with surrounding
whitespace becomes `" / "`; scanning resumes after the match. -/
def subSlash : Nat → List Char → List Char
  | _, [] => []
  | 0, l => l
  | fuel + 1, c :: rest =>
    match (c :: rest).dropWhile isPySpace with
    | '/' :: r2 => ' ' :: '/' :: ' ' :: subSlash fuel (r2.dropWhile isPySpace)
    | _ => c :: subSlash fuel rest

/-- `re.sub(r"\s*,\s*", ", ", s)`: each comma together with surrounding
whitespace becomes `", "`. -/
def subComma : Nat → List Char → List Char
  | _, [] => []
  | 0, l => l
  | fuel + 1, c :: rest =>
    match (c :: rest).dropWhile isPySpace with
    | ',' :: r2 => ',' :: ' ' :: subComma fuel (r2.dropWhile isPySpace)
    | _ => c :: subComma fuel rest

/-- `re.sub(r"(?<=\d), (?=\d)", ",", s)`: the two characters `", "` between
digits collapse back to `","`; the flag is whether the previous source
character is a digit. -/
def dcGo : List Char → Bool → List Char
  | [], _ => []
  | ',' :: ' ' :: d :: r2, true =>
    if isPyDigit d then ',' :: dcGo (d :: r2) false
    else ',' :: dcGo (' ' :: d :: r2) false
  | c :: rest, _ => c :: dcGo rest (isPyDigit c)

/-- `re.sub(r"\s{2,}", " ", s)`: whitespace runs of length at least two
become a single space; a lone whitespace character is kept verbatim. -/
def collapse2 : Nat → List Char → List Char
  | _, [] => []
  | 0, l => l
  | fuel + 1, c :: rest =>
    if isPySpace c then
      match rest with
      | [] => [c]
      | d :: _ =>
        if isPySpace d then ' ' :: collapse2 fuel (rest.dropWhile isPySpace)
        else c :: collapse2 fuel rest
    else c :: collapse2 fuel rest

/-- `clean_answer`: strip, cut the `| (note: ...` annotation, drop trailing
bars, normalize `/` and `,` spacing, re-join digit groups split by the
comma normalization, collapse repeated whitespace, strip. -/
def clean_answer (answer : String) : String :=
  let a1 := noteSplit (pyStrip answer.data)
  let a2 := pyStrip (rstripPipe a1)
  let a3 := subSlash (a2.length + 1) a2
  let a4 := subComma (a3.length + 1) a3
  let a5 := dcGo a4 false
  ⟨pyStrip (collapse2 (a5.length + 1) a5)⟩

/-- Match `\d+\.\s+` at the head of `s` (the start of a question match):
returns the digit run and the remainder after the dot and the greedy
whitespace. -/
def qHeadMatch (s : List Char) : Option (List Char × List Char) :=
  match s with
  | [] => none
  | c :: _ =>
    if isPyDigit c then
      match s.dropWhile isPyDigit with
      | '.' :: r =>
        match r with
        | [] => none
        | w :: _ => if isPySpace w then some (s.takeWhile isPyDigit, r.dropWhile isPySpace) else none
      | _ => none
    else none

/-- Advance to the first suffix where the lookahead `(?=\d+\.\s+|$)` holds. -/
def advanceToQLA : Nat → List Char → List Char
  | _, [] => []
  | 0, s => s
  | fuel + 1, c :: rest =>
    if (qHeadMatch (c :: rest)).isSome || atEndDollar (c :: rest) then c :: rest
    else advanceToQLA fuel rest

/-- `findall` of `(\d+)\.\s+(.*?)(?=\d+\.\s+|$)`: all `(number_text,
fragment)` pairs of a round body, in order. -/
def qFindAll : Nat → List Char → List (String × String)
  | _, [] => []
  | 0, _ => []
  | fuel + 1, c :: rest =>
    match qHeadMatch (c :: rest) with
    | some (ds, afterWs) =>
      let e := advanceToQLA afterWs.length afterWs
      (⟨ds⟩, ⟨afterWs.take (afterWs.length - e.length)⟩) :: qFindAll fuel e
    | none => qFindAll fuel rest

/-- The accumulation loop of `_parse_questions` over the question matches.
`expected` is `expected_number` (`none` until first set); an accepted match
with a number greater than expected stops the scan; a smaller number
re-synchronizes `expected` and continues; an entry is emitted only when
answer extraction succeeds, and then `expected` becomes number + 1. -/
def parseQGo : List (String × String) → Option Nat → List (String × String) →
    List (String × String)
  | [], _, entries => entries.reverse
  | (numText, frag) :: ms, expected, entries =>
    if (pyStrip frag.data).isEmpty then parseQGo ms expected entries
    else
      let number := parseNat numText
      match expected with
      | some exp =>
        if number > exp then entries.reverse
        else
          let exp' := if number < exp then number else exp
          match extract_answer ⟨pyStrip frag.data⟩ with
          | none => parseQGo ms (some exp') entries
          | some ans =>
            parseQGo ms (some (number + 1)) ((numText, clean_answer ans) :: entries)
      | none =>
        match extract_answer ⟨pyStrip frag.data⟩ with
        | none => parseQGo ms (some number) entries
        | some ans =>
          parseQGo ms (some (number + 1)) ((numText, clean_answer ans) :: entries)

/-- `_parse_questions`: the `(question number, answer)` pairs of one round
body. -/
def _parse_questions (body : String) : List (String × String) :=
  parseQGo (qFindAll (body.data.length + 1) body.data) none []

/-- `parse_rounds`: the numbered round sections with their parsed entries,
followed by a `Tiebreakers` round when present; sections without a question
marker, and sections whose body parses to no entries, are dropped. -/
def parse_rounds (text : String) : List (String × List (String × String)) :=
  let tl := text.data
  let mainRounds := (findRoundSections (tl.length + 1) tl).filterMap fun sec =>
    let secS := pyStrip sec
    match findQStart secS false 0 with
    | none => none
    | some idx =>
      let entries := _parse_questions ⟨pyStrip (secS.drop idx)⟩
      if entries.isEmpty then none
      else some (⟨pyStrip (secS.take idx)⟩, entries)
  let tbRounds :=
    match findTB tl false with
    | none => []
    | some r =>
      let secS := pyStrip r
      match findQStart secS false 0 with
      | none => []
      | some idx =>
        let entries := _parse_questions ⟨pyStrip (secS.drop idx)⟩
        if entries.isEmpty then [] else [("Tiebreakers", entries)]
  mainRounds ++ tbRounds

/-- The outcome-reporting logic of `main` after text extraction: an empty
round list is the explicit failure `parser.error(...)` (modelled as
`Except.error`, which aborts before `write_csv` runs); otherwise the rounds
are handed to the writer. -/
def runPipeline (blocks : List String) : Except String (List (String × List (String × String))) :=
  let rounds := parse_rounds (extract_text blocks)
  if rounds.isEmpty then
    Except.error "No rounds found in PDF; is this a supported export?"
  else Except.ok rounds

/-! ## Helper lemmas -/

/-- An extracted answer is never the empty string: every `some` branch of
`extract_answer` guards against an empty trailing text. -/
theorem extract_answer_ne_empty {s a : String} (h : extract_answer s = some a) : a ≠ "" := by
  intro hcon
  subst hcon
  simp only [extract_answer] at h
  split at h
  · simp at h
  · split at h
    · split at h <;> simp_all [String.ext_iff]
    · split at h
      · split at h <;> simp_all [String.ext_iff]
      · simp_all [String.ext_iff]

/-- Every entry emitted by the question loop satisfies any property that
holds of all accumulated entries and of every freshly extracted one. -/
theorem parseQGo_mem {P : String × String → Prop}
    (hP : ∀ numText frag ans, extract_answer ⟨pyStrip (String.data frag)⟩ = some ans →
      P (numText, clean_answer ans)) :
    ∀ ms exp acc, (∀ p ∈ acc, P p) → ∀ p ∈ parseQGo ms exp acc, P p := by
  intro ms
  induction ms with
  | nil =>
    intro exp acc hacc p hp
    simp only [parseQGo] at hp
    exact hacc p (List.mem_reverse.mp hp)
  | cons m ms ih =>
    obtain ⟨numText, frag⟩ := m
    intro exp acc hacc p hp
    cases exp with
    | none =>
      simp only [parseQGo] at hp
      split at hp
      · exact ih _ _ hacc p hp
      · split at hp
        · exact ih _ _ hacc p hp
        · next ans heq =>
          refine ih _ _ ?_ p hp
          intro q hq
          rcases List.mem_cons.mp hq with rfl | hq
          · exact hP numText frag ans heq
          · exact hacc q hq
    | some e =>
      simp only [parseQGo] at hp
      split at hp
      · exact ih _ _ hacc p hp
      · split at hp
        · exact hacc p (List.mem_reverse.mp hp)
        · split at hp
          · exact ih _ _ hacc p hp
          · next ans heq =>
            refine ih _ _ ?_ p hp
            intro q hq
            rcases List.mem_cons.mp hq with rfl | hq
            · exact hP numText frag ans heq
            · exact hacc q hq

/-- Invariant-carrying induction for the question loop: consecutive emitted
entry numbers rise by at most one. -/
theorem parseQGo_chain :
    ∀ (ms : List (String × String)) (exp : Option Nat) (acc : List (String × String)),
      List.Chain' (fun p q => parseNat p.1 ≤ parseNat q.1 + 1) acc →
      (∀ e p, exp = some e → acc.head? = some p → e ≤ parseNat p.1 + 1) →
      (exp = none → acc = []) →
      List.Chain' (fun p q => parseNat q.1 ≤ parseNat p.1 + 1) (parseQGo ms exp acc) := by
  intro ms
  induction ms with
  | nil =>
    intro exp acc h1 _ _
    simp only [parseQGo]
    exact List.chain'_reverse.mpr h1
  | cons m ms ih =>
    obtain ⟨numText, frag⟩ := m
    intro exp acc h1 h2 h3
    cases exp with
    | none =>
      have hacc : acc = [] := h3 rfl
      subst hacc
      simp only [parseQGo]
      split
      · exact ih none [] h1 h2 h3
      · split
        · refine ih _ [] h1 ?_ (by simp)
          intro e' p he' hp
          simp at hp
        · next ans heq =>
          refine ih _ _ ?_ ?_ (by simp)
          · exact List.chain'_cons'.mpr ⟨by simp, List.chain'_nil⟩
          · intro e' p he' hp
            injection he' with he'
            simp only [List.head?_cons, Option.some.injEq] at hp
            subst he'
            subst hp
            show parseNat numText + 1 ≤ parseNat numText + 1
            omega
    | some e =>
      simp only [parseQGo]
      split
      · refine ih (some e) acc h1 ?_ (by simp)
        intro e' p he' hp
        injection he' with he'
        subst he'
        exact h2 _ p rfl hp
      · split
        · exact List.chain'_reverse.mpr h1
        · next hle =>
          split
          · refine ih _ acc h1 ?_ (by simp)
            intro e' p he' hp
            injection he' with he'
            have h4 := h2 e p rfl hp
            subst he'
            split <;> omega
          · next ans heq =>
            refine ih _ _ ?_ ?_ (by simp)
            · refine List.chain'_cons'.mpr ⟨?_, h1⟩
              intro q hq
              have hq' : acc.head? = some q := hq
              have h4 := h2 e q rfl hq'
              show parseNat numText ≤ parseNat q.1 + 1
              omega
            · intro e' p he' hp
              injection he' with he'
              simp only [List.head?_cons, Option.some.injEq] at hp
              subst he'
              subst hp
              show parseNat numText + 1 ≤ parseNat numText + 1
              omega

/-- The last-occurrence search fails exactly when the character is absent. -/
theorem rfindPos_eq_none {m : Char} : ∀ {l : List Char}, rfindPos m l = none ↔ m ∉ l := by
  intro l
  induction l with
  | nil => simp [rfindPos]
  | cons c rest ih =>
    simp only [rfindPos]
    cases h : rfindPos m rest with
    | some i =>
      simp only [List.mem_cons]
      constructor
      · intro hc; exact absurd hc (by simp)
      · intro hc
        exact absurd (ih.mpr fun hm => hc (Or.inr hm)) (by simp [h])
    | none =>
      have hrest : m ∉ rest := ih.mp h
      constructor
      · intro hc
        by_cases hcm : c = m
        · subst hcm
          simp [h] at hc
        · simp only [List.mem_cons]
          rintro (rfl | hm)
          · exact hcm rfl
          · exact hrest hm
      · intro hc
        show (if c == m then some 0 else none) = none
        rw [if_neg (by simp only [beq_iff_eq]; rintro rfl; exact hc (by simp))]

/-- The last occurrence of `m` in `a ++ m :: b` with `m` absent from `b` is
at index `a.length`. -/
theorem rfindPos_append (a b : List Char) {m : Char} (hb : m ∉ b) :
    rfindPos m (a ++ m :: b) = some a.length := by
  induction a with
  | nil =>
    simp only [List.nil_append, rfindPos, rfindPos_eq_none.mpr hb]
    simp
  | cons c a' ih =>
    simp only [List.cons_append, rfindPos, List.append_eq]
    rw [ih]
    simp

/-- Octal digits are not in the simple-escape table. -/
theorem escMap_eq_none_of_octal {c : Char} (h : isOctalDigit c = true) : escMap c = none := by
  simp only [isOctalDigit, Bool.and_eq_true, decide_eq_true_eq] at h
  obtain ⟨h1, h2⟩ := h
  simp only [escMap]
  rw [if_neg, if_neg, if_neg, if_neg, if_neg, if_neg, if_neg, if_neg]
  all_goals simp only [beq_iff_eq]
  all_goals rintro rfl
  all_goals revert h1 h2
  all_goals decide

/-- The tokenizer emits the accumulated text when input runs out. -/
theorem scanToken_nil (fuel depth : Nat) (acc : List Char) :
    scanToken fuel [] depth acc = (⟨acc.reverse⟩, []) := by
  cases fuel <;> rfl

/-- The tokenizer only consumes input: the remainder is never longer. -/
theorem scanToken_length_le :
    ∀ (fuel : Nat) (content : List Char) (depth : Nat) (acc : List Char),
      (scanToken fuel content depth acc).2.length ≤ content.length := by
  intro fuel
  induction fuel with
  | zero => intro content depth acc; cases content <;> simp [scanToken]
  | succ n ih =>
    intro content depth acc
    cases content with
    | nil => simp [scanToken]
    | cons c cs =>
      simp only [scanToken]
      repeat' split
      all_goals
        first
        | (simp; done)
        | (refine le_trans (ih _ _ _) ?_; simp only [List.length_cons]; omega)

/-- Any two sufficient fuel values drive the tokenizer to the same result:
the scan genuinely terminates once the fuel covers the input length,
because every iteration consumes at least one character. -/
theorem scanToken_fuel_congr :
    ∀ (f g : Nat) (content : List Char) (depth : Nat) (acc : List Char),
      content.length ≤ f → content.length ≤ g →
      scanToken f content depth acc = scanToken g content depth acc := by
  intro f
  induction f with
  | zero =>
    intro g content depth acc hf _
    have hc : content = [] := List.length_eq_zero.mp (Nat.le_zero.mp hf)
    subst hc
    rw [scanToken_nil, scanToken_nil]
  | succ n ih =>
    intro g content depth acc hf hg
    cases content with
    | nil => rw [scanToken_nil, scanToken_nil]
    | cons c cs =>
      obtain ⟨g', rfl⟩ : ∃ g', g = g' + 1 := by
        cases g
        · simp at hg
        · exact ⟨_, rfl⟩
      simp only [scanToken]
      repeat' split
      all_goals
        first
        | rfl
        | (simp only [List.length_cons] at hf hg;
           apply ih <;>
             first
             | (simp only [List.length_cons]; omega)
             | omega)

/-! ## Sanitizer idempotence machinery -/

/-- Specification helper: does the locale-marker artifact `en-US` occur
anywhere in the list?  (Used only to reason about `replaceEnUS`.) -/
def hasEnUS : List Char → Bool
  | [] => false
  | 'e' :: 'n' :: '-' :: 'U' :: 'S' :: _ => true
  | _ :: rest => hasEnUS rest

/-- Dropping the head cannot create an occurrence. -/
theorem hasEnUS_cons_false {c : Char} {rest : List Char} (h : hasEnUS (c :: rest) = false) :
    hasEnUS rest = false := by
  by_cases hc : ∃ r, c = 'e' ∧ rest = 'n' :: '-' :: 'U' :: 'S' :: r
  · obtain ⟨r, rfl, rfl⟩ := hc
    simp [hasEnUS] at h
  · rw [hasEnUS.eq_3 _ _ (fun r h1 h2 => hc ⟨r, h1, h2⟩)] at h
    exact h

/-- A cons has no occurrence when the head does not start one and the tail
has none. -/
theorem hasEnUS_intro {c : Char} {rest : List Char}
    (hne : ∀ r, c = 'e' → rest = 'n' :: '-' :: 'U' :: 'S' :: r → False)
    (h : hasEnUS rest = false) : hasEnUS (c :: rest) = false := by
  rw [hasEnUS.eq_3 _ _ hne]
  exact h

/-- Occurrence-freedom passes to any suffix. -/
theorem hasEnUS_append_right {u s : List Char} (h : hasEnUS (u ++ s) = false) :
    hasEnUS s = false := by
  induction u with
  | nil => exact h
  | cons c u' ih =>
    rw [List.cons_append] at h
    exact ih (hasEnUS_cons_false h)

/-- Occurrence-freedom passes to any leading part. -/
theorem hasEnUS_append_left : ∀ {a b : List Char}, hasEnUS (a ++ b) = false →
    hasEnUS a = false := by
  intro a
  induction a with
  | nil => intro b _; rfl
  | cons c a' ih =>
    intro b h
    by_cases hc : ∃ r, c = 'e' ∧ a' = 'n' :: '-' :: 'U' :: 'S' :: r
    · obtain ⟨r, rfl, rfl⟩ := hc
      simp only [List.cons_append] at h
      simp [hasEnUS] at h
    · have h' : hasEnUS (a' ++ b) = false := by
        rw [List.cons_append] at h
        exact hasEnUS_cons_false h
      exact hasEnUS_intro (fun r h1 h2 => hc ⟨r, h1, h2⟩) (ih h')

/-- Occurrence-freedom survives `dropWhile`. -/
theorem hasEnUS_dropWhile {p : Char → Bool} {l : List Char} (h : hasEnUS l = false) :
    hasEnUS (l.dropWhile p) = false :=
  hasEnUS_append_right (u := l.takeWhile p) (by
    rw [List.takeWhile_append_dropWhile]
    exact h)

/-- Characters of the replacement output come from the input or are the
inserted space. -/
theorem mem_replaceEnUS : ∀ {l : List Char} {c : Char}, c ∈ replaceEnUS l →
    c = ' ' ∨ c ∈ l := by
  intro l
  induction l using replaceEnUS.induct with
  | case1 => intro c hc; simp [replaceEnUS] at hc
  | case2 rest ih =>
    intro c hc
    rw [replaceEnUS.eq_2] at hc
    rcases List.mem_cons.mp hc with rfl | hc
    · exact Or.inl rfl
    · rcases ih hc with h | h
      · exact Or.inl h
      · exact Or.inr (by simp [h])
  | case3 c0 rest hne ih =>
    intro c hc
    rw [replaceEnUS.eq_3 _ _ hne] at hc
    rcases List.mem_cons.mp hc with rfl | hc
    · exact Or.inr (List.mem_cons_self _ _)
    · rcases ih hc with h | h
      · exact Or.inl h
      · exact Or.inr (List.mem_cons_of_mem _ h)

/-- A space-free leading part of the replacement output is copied verbatim
from the input. -/
theorem replaceEnUS_pull : ∀ (q : List Char) {l t : List Char}, ' ' ∉ q →
    replaceEnUS l = q ++ t → ∃ u, l = q ++ u := by
  intro q
  induction q with
  | nil => intro l t _ _; exact ⟨l, rfl⟩
  | cons a q' ih =>
    intro l t hq h
    rcases l with _ | ⟨c, rest⟩
    · rw [show replaceEnUS [] = [] from rfl] at h
      exact absurd h (by simp)
    · by_cases hc : ∃ r, c = 'e' ∧ rest = 'n' :: '-' :: 'U' :: 'S' :: r
      · obtain ⟨r, rfl, rfl⟩ := hc
        rw [replaceEnUS.eq_2, List.cons_append] at h
        injection h with h1 _
        subst h1
        exact absurd (List.mem_cons_self _ _) hq
      · have hne : ∀ r, c = 'e' → rest = 'n' :: '-' :: 'U' :: 'S' :: r → False :=
          fun r h1 h2 => hc ⟨r, h1, h2⟩
        rw [replaceEnUS.eq_3 _ _ hne, List.cons_append] at h
        injection h with h1 h2
        subst h1
        obtain ⟨u, hu⟩ := ih (fun hm => hq (List.mem_cons_of_mem _ hm)) h2
        exact ⟨u, by rw [List.cons_append, hu]⟩

/-- The replacement output never contains the artifact: removed occurrences
are replaced by a space, which cannot take part in a new occurrence. -/
theorem hasEnUS_replaceEnUS : ∀ l, hasEnUS (replaceEnUS l) = false := by
  intro l
  induction l using replaceEnUS.induct with
  | case1 => rfl
  | case2 rest ih =>
    rw [replaceEnUS.eq_2]
    exact hasEnUS_intro (by rintro r h1 _; exact absurd h1 (by decide)) ih
  | case3 c rest hne ih =>
    rw [replaceEnUS.eq_3 _ _ hne]
    refine hasEnUS_intro ?_ ih
    rintro r rfl hr
    obtain ⟨u, hu⟩ := replaceEnUS_pull ['n', '-', 'U', 'S'] (by decide) hr
    exact hne u rfl hu

/-- On artifact-free input the replacement is the identity. -/
theorem replaceEnUS_eq_self : ∀ {l : List Char}, hasEnUS l = false → replaceEnUS l = l := by
  intro l
  induction l using replaceEnUS.induct with
  | case1 => intro _; rfl
  | case2 rest _ => intro h; simp [hasEnUS] at h
  | case3 c rest hne ih =>
    intro h
    rw [replaceEnUS.eq_3 _ _ hne, ih (hasEnUS_cons_false h)]

/-- Pointwise-fixed maps are the identity on lists. -/
theorem map_eq_self_of {f : Char → Char} : ∀ {l : List Char}, (∀ a ∈ l, f a = a) →
    l.map f = l := by
  intro l
  induction l with
  | nil => intro _; rfl
  | cons c rest ih =>
    intro h
    rw [List.map_cons, h c (List.mem_cons_self _ _),
      ih fun a ha => h a (List.mem_cons_of_mem _ ha)]

/-- A map that only ever rewrites characters to a space cannot create an
artifact occurrence. -/
theorem hasEnUS_map {f : Char → Char} (hf : ∀ c, f c = c ∨ f c = ' ') :
    ∀ {l : List Char}, hasEnUS l = false → hasEnUS (l.map f) = false := by
  have pf : ∀ a y, f a = y → y ≠ ' ' → a = y := by
    intro a y h hy
    rcases hf a with hh | hh
    · rw [← hh, h]
    · rw [hh] at h
      exact absurd h.symm hy
  intro l
  induction l with
  | nil => intro _; rfl
  | cons c rest ih =>
    intro h
    rw [List.map_cons]
    refine hasEnUS_intro ?_ (ih (hasEnUS_cons_false h))
    rintro r hfc hmap
    have hc : c = 'e' := pf c 'e' hfc (by decide)
    rcases rest with _ | ⟨a1, r1⟩
    · simp at hmap
    rcases r1 with _ | ⟨a2, r2⟩
    · simp at hmap
    rcases r2 with _ | ⟨a3, r3⟩
    · simp at hmap
    rcases r3 with _ | ⟨a4, r4⟩
    · simp at hmap
    simp only [List.map_cons, List.cons.injEq] at hmap
    obtain ⟨h1, h2, h3, h4, -⟩ := hmap
    have ha1 : a1 = 'n' := pf a1 'n' h1 (by decide)
    have ha2 : a2 = '-' := pf a2 '-' h2 (by decide)
    have ha3 : a3 = 'U' := pf a3 'U' h3 (by decide)
    have ha4 : a4 = 'S' := pf a4 'S' h4 (by decide)
    subst hc ha1 ha2 ha3 ha4
    simp [hasEnUS] at h

/-- Characters of the collapse output either come from the input as
non-whitespace, or are the replacement space. -/
theorem mem_collapseWs : ∀ {l : List Char} {b : Bool} {c : Char}, c ∈ collapseWs l b →
    c = ' ' ∨ (c ∈ l ∧ isPySpace c = false) := by
  intro l
  induction l with
  | nil => intro b c hc; simp [collapseWs] at hc
  | cons d rest ih =>
    intro b c hc
    by_cases hd : isPySpace d
    · cases b
      · rw [show collapseWs (d :: rest) false = ' ' :: collapseWs rest true from by
          simp [collapseWs, hd]] at hc
        rcases List.mem_cons.mp hc with rfl | hc
        · exact Or.inl rfl
        · rcases ih hc with h | ⟨h1, h2⟩
          · exact Or.inl h
          · exact Or.inr ⟨List.mem_cons_of_mem _ h1, h2⟩
      · rw [show collapseWs (d :: rest) true = collapseWs rest true from by
          simp [collapseWs, hd]] at hc
        rcases ih hc with h | ⟨h1, h2⟩
        · exact Or.inl h
        · exact Or.inr ⟨List.mem_cons_of_mem _ h1, h2⟩
    · rw [show collapseWs (d :: rest) b = d :: collapseWs rest false from by
        simp [collapseWs, hd]] at hc
      rcases List.mem_cons.mp hc with rfl | hc
      · exact Or.inr ⟨List.mem_cons_self _ _, by simpa using hd⟩
      · rcases ih hc with h | ⟨h1, h2⟩
        · exact Or.inl h
        · exact Or.inr ⟨List.mem_cons_of_mem _ h1, h2⟩

/-- Inside a run whose space was already emitted, the next output character
is never whitespace. -/
theorem collapseWs_true_head : ∀ {l : List Char} {c : Char},
    (collapseWs l true).head? = some c → isPySpace c = false := by
  intro l
  induction l with
  | nil => intro c hc; simp [collapseWs] at hc
  | cons d rest ih =>
    intro c hc
    by_cases hd : isPySpace d
    · rw [show collapseWs (d :: rest) true = collapseWs rest true from by
        simp [collapseWs, hd]] at hc
      exact ih hc
    · rw [show collapseWs (d :: rest) true = d :: collapseWs rest false from by
        simp [collapseWs, hd], List.head?_cons] at hc
      injection hc with hc
      subst hc
      simpa using hd

/-- The collapse output never has two adjacent whitespace characters. -/
theorem collapseWs_chain : ∀ (l : List Char) (b : Bool),
    List.Chain' (fun a c => ¬(isPySpace a = true ∧ isPySpace c = true)) (collapseWs l b) := by
  intro l
  induction l with
  | nil => intro b; simp [collapseWs]
  | cons d rest ih =>
    intro b
    by_cases hd : isPySpace d
    · cases b
      · rw [show collapseWs (d :: rest) false = ' ' :: collapseWs rest true from by
          simp [collapseWs, hd]]
        refine List.chain'_cons'.mpr ⟨?_, ih true⟩
        intro y hy
        have h2 := collapseWs_true_head (Option.mem_def.mp hy)
        simp [h2]
      · rw [show collapseWs (d :: rest) true = collapseWs rest true from by
          simp [collapseWs, hd]]
        exact ih true
    · rw [show collapseWs (d :: rest) b = d :: collapseWs rest false from by
        simp [collapseWs, hd]]
      refine List.chain'_cons'.mpr ⟨?_, ih false⟩
      intro y _
      simp [hd]

/-- A whitespace-free leading part of the collapse output is copied verbatim
from the input. -/
theorem collapseWs_pull : ∀ (q : List Char) {l t : List Char},
    (∀ a ∈ q, isPySpace a = false) → collapseWs l false = q ++ t → ∃ u, l = q ++ u := by
  intro q
  induction q with
  | nil => intro l t _ _; exact ⟨l, rfl⟩
  | cons a q' ih =>
    intro l t hq h
    rcases l with _ | ⟨c, rest⟩
    · simp [collapseWs] at h
    · by_cases hc : isPySpace c
      · rw [show collapseWs (c :: rest) false = ' ' :: collapseWs rest true from by
          simp [collapseWs, hc], List.cons_append] at h
        injection h with h1 _
        have h2 := hq a (List.mem_cons_self _ _)
        rw [← h1] at h2
        exact absurd h2 (by decide)
      · rw [show collapseWs (c :: rest) false = c :: collapseWs rest false from by
          simp [collapseWs, hc], List.cons_append] at h
        injection h with h1 h2
        subst h1
        obtain ⟨u, hu⟩ := ih (fun x hx => hq x (List.mem_cons_of_mem _ hx)) h2
        exact ⟨u, by rw [List.cons_append, hu]⟩

/-- Collapsing whitespace cannot create an artifact occurrence. -/
theorem hasEnUS_collapseWs : ∀ {l : List Char} (b : Bool), hasEnUS l = false →
    hasEnUS (collapseWs l b) = false := by
  intro l
  induction l with
  | nil => intro b _; cases b <;> rfl
  | cons c rest ih =>
    intro b h
    have htail := hasEnUS_cons_false h
    by_cases hc : isPySpace c
    · cases b
      · rw [show collapseWs (c :: rest) false = ' ' :: collapseWs rest true from by
          simp [collapseWs, hc]]
        refine hasEnUS_intro ?_ (ih true htail)
        rintro r h1 _
        exact absurd h1 (by decide)
      · rw [show collapseWs (c :: rest) true = collapseWs rest true from by
          simp [collapseWs, hc]]
        exact ih true htail
    · rw [show collapseWs (c :: rest) b = c :: collapseWs rest false from by
        simp [collapseWs, hc]]
      refine hasEnUS_intro ?_ (ih false htail)
      rintro r rfl hr
      obtain ⟨u, hu⟩ := collapseWs_pull ['n', '-', 'U', 'S'] (by decide) hr
      rw [hu] at h
      simp [hasEnUS] at h

/-- The flag is irrelevant when the input starts with non-whitespace. -/
theorem collapseWs_true_eq_false {l : List Char}
    (h : ∀ c, l.head? = some c → isPySpace c = false) :
    collapseWs l true = collapseWs l false := by
  rcases l with _ | ⟨c, rest⟩
  · rfl
  · simp [collapseWs, h c rfl]

/-- Collapsing is the identity on text whose whitespace is single spaces
with no two adjacent. -/
theorem collapseWs_eq_self : ∀ {l : List Char},
    (∀ c ∈ l, isPySpace c = true → c = ' ') →
    List.Chain' (fun a c => ¬(isPySpace a = true ∧ isPySpace c = true)) l →
    collapseWs l false = l := by
  intro l
  induction l with
  | nil => intro _ _; rfl
  | cons c rest ih =>
    intro hmem hch
    obtain ⟨hhead, htail⟩ := List.chain'_cons'.mp hch
    by_cases hc : isPySpace c
    · have hcsp : c = ' ' := hmem c (List.mem_cons_self _ _) hc
      subst hcsp
      rw [show collapseWs (' ' :: rest) false = ' ' :: collapseWs rest true from by
        simp [collapseWs, show isPySpace ' ' = true from by decide]]
      have hd : ∀ d, rest.head? = some d → isPySpace d = false := by
        intro d hd
        have h3 := hhead d (Option.mem_def.mpr hd)
        cases hps : isPySpace d
        · rfl
        · exact absurd ⟨by decide, hps⟩ h3
      rw [collapseWs_true_eq_false hd,
        ih (fun x hx => hmem x (List.mem_cons_of_mem _ hx)) htail]
    · rw [show collapseWs (c :: rest) false = c :: collapseWs rest false from by
        simp [collapseWs, hc]]
      rw [ih (fun x hx => hmem x (List.mem_cons_of_mem _ hx)) htail]

/-- The first survivor of a `dropWhile` fails the predicate. -/
theorem dropWhile_head?_false {p : Char → Bool} : ∀ {l : List Char} {c : Char},
    (l.dropWhile p).head? = some c → p c = false := by
  intro l
  induction l with
  | nil => intro c hc; simp at hc
  | cons d rest ih =>
    intro c hc
    rw [List.dropWhile_cons] at hc
    split at hc
    · exact ih hc
    · next hd =>
      rw [List.head?_cons] at hc
      injection hc with hc
      subst hc
      simpa using hd

/-- `dropWhile` is the identity when the head already fails the predicate. -/
theorem dropWhile_eq_self_of_head {p : Char → Bool} {l : List Char}
    (h : ∀ c, l.head? = some c → p c = false) : l.dropWhile p = l := by
  rcases l with _ | ⟨c, rest⟩
  · rfl
  · simp [List.dropWhile_cons, h c rfl]

/-- The trimmed document is surrounded by the two dropped whitespace runs. -/
theorem pyStrip_decomp (l : List Char) :
    l = l.takeWhile isPySpace ++
      (pyStrip l ++ ((l.dropWhile isPySpace).reverse.takeWhile isPySpace).reverse) := by
  conv_lhs => rw [← List.takeWhile_append_dropWhile isPySpace l]
  congr 1
  conv_lhs => rw [← List.reverse_reverse (l.dropWhile isPySpace),
    ← List.takeWhile_append_dropWhile isPySpace (l.dropWhile isPySpace).reverse,
    List.reverse_append]
  rfl

/-- Trimming cannot create an artifact occurrence. -/
theorem hasEnUS_pyStrip {l : List Char} (h : hasEnUS l = false) :
    hasEnUS (pyStrip l) = false := by
  have h1 := pyStrip_decomp l
  rw [h1] at h
  exact hasEnUS_append_left (hasEnUS_append_right h)

/-- Trimming keeps the no-adjacent-whitespace invariant. -/
theorem chain'_pyStrip {R : Char → Char → Prop} {l : List Char} (h : List.Chain' R l) :
    List.Chain' R (pyStrip l) := by
  have h1 := pyStrip_decomp l
  rw [h1] at h
  exact (h.right_of_append).left_of_append

/-- Trimming only removes characters. -/
theorem mem_pyStrip {l : List Char} {c : Char} (hc : c ∈ pyStrip l) : c ∈ l := by
  unfold pyStrip at hc
  have h1 := List.mem_reverse.mp hc
  have h2 := List.Sublist.mem h1 (List.dropWhile_sublist _)
  have h3 := List.mem_reverse.mp h2
  exact List.Sublist.mem h3 (List.dropWhile_sublist _)

/-- The last element of a `dropWhile` result is the last of the input. -/
theorem getLast?_dropWhile {p : Char → Bool} : ∀ (m : List Char),
    m.dropWhile p ≠ [] → (m.dropWhile p).getLast? = m.getLast? := by
  intro m
  induction m with
  | nil => intro h; exact absurd rfl h
  | cons d rest ih =>
    intro h
    rw [List.dropWhile_cons] at h ⊢
    by_cases hd : p d = true
    · rw [if_pos hd] at h ⊢
      rw [ih h]
      rcases rest with _ | ⟨f, fs⟩
      · simp at h
      · rw [List.getLast?_cons_cons]
    · rw [if_neg hd]

/-- The trimmed document starts with non-whitespace. -/
theorem pyStrip_head {l : List Char} {c : Char} (h : (pyStrip l).head? = some c) :
    isPySpace c = false := by
  unfold pyStrip at h
  rw [List.head?_reverse] at h
  have hne : (l.dropWhile isPySpace).reverse.dropWhile isPySpace ≠ [] := by
    intro he
    rw [he] at h
    simp at h
  rw [getLast?_dropWhile _ hne, List.getLast?_reverse] at h
  exact dropWhile_head?_false h

/-- The trimmed document ends with non-whitespace. -/
theorem pyStrip_getLast {l : List Char} {c : Char} (h : (pyStrip l).getLast? = some c) :
    isPySpace c = false := by
  unfold pyStrip at h
  rw [List.getLast?_reverse] at h
  exact dropWhile_head?_false h

/-- Trimming is the identity on already-trimmed text. -/
theorem pyStrip_eq_self {l : List Char}
    (hh : ∀ c, l.head? = some c → isPySpace c = false)
    (hl : ∀ c, l.getLast? = some c → isPySpace c = false) : pyStrip l = l := by
  unfold pyStrip
  rw [dropWhile_eq_self_of_head hh]
  have h2 : l.reverse.dropWhile isPySpace = l.reverse := dropWhile_eq_self_of_head (by
    intro c hc
    rw [List.head?_reverse] at hc
    exact hl c hc)
  rw [h2, List.reverse_reverse]

/-- One sanitizer pass is the identity on text that is already printable,
CR/LF-free, artifact-free, whitespace-collapsed and trimmed. -/
theorem sanitize_pass_eq_self {T : List Char}
    (hkeep : ∀ c ∈ T, keepPrintable c = true)
    (hcr : ∀ c ∈ T, c ≠ '\r')
    (hlf : ∀ c ∈ T, c ≠ '\n')
    (hws : ∀ c ∈ T, isPySpace c = true → c = ' ')
    (hen : hasEnUS T = false)
    (hch : List.Chain' (fun a c => ¬(isPySpace a = true ∧ isPySpace c = true)) T)
    (hhead : ∀ c, T.head? = some c → isPySpace c = false)
    (hlast : ∀ c, T.getLast? = some c → isPySpace c = false) :
    sanitize ⟨T⟩ = ⟨T⟩ := by
  have h3 : T.map (fun c => if c == '\r' then ' ' else c) = T := map_eq_self_of (by
    intro a ha
    simp [beq_iff_eq, hcr a ha])
  have h4 : T.map (fun c => if c == '\n' then ' ' else c) = T := map_eq_self_of (by
    intro a ha
    simp [beq_iff_eq, hlf a ha])
  simp only [sanitize]
  rw [List.filter_eq_self.mpr hkeep, replaceEnUS_eq_self hen, h3, h4,
    collapseWs_eq_self hws hch, pyStrip_eq_self hhead hlast]

/-! ## Claim theorems -/

/-- C1, counterexample: on the spec's synthetic container the pipeline does
not produce the entry `("1", "4")` — answer extraction keeps the text after
the last `?`, so the exclamation mark stays in the first answer. -/
theorem C1_counterexample :
    parse_rounds (extract_text
        ["(Round 1: Warmup 1. What is 2+2? 4! 2. Capital of France? Paris|)"]) ≠
      [("Round 1: Warmup", [("1", "4"), ("2", "Paris")])] := by decide

/-- C1 (amended): for a container holding exactly one block whose content is
`(Round 1: Warmup 1. What is 2+2? 4! 2. Capital of France? Paris|)`, the
pipeline produces exactly one round, named "Round 1: Warmup", whose entries
are `[("1", "4!"), ("2", "Paris")]` — the first answer retains the bang,
because extraction cuts after the last question mark. -/
theorem C1_end_to_end :
    parse_rounds (extract_text
        ["(Round 1: Warmup 1. What is 2+2? 4! 2. Capital of France? Paris|)"]) =
      [("Round 1: Warmup", [("1", "4!"), ("2", "Paris")])] := by decide

/-- C2: an input whose flattened document yields zero rounds makes the
pipeline return the explicit error (so no rubric is written), and a
successful run never carries an empty rubric. -/
theorem C2_zero_rounds_failure (blocks : List String) :
    (parse_rounds (extract_text blocks) = [] →
      runPipeline blocks = Except.error "No rounds found in PDF; is this a supported export?") ∧
    ∀ r, runPipeline blocks = Except.ok r → r ≠ [] := by
  constructor
  · intro h
    simp [runPipeline, h]
  · intro r hr
    simp only [runPipeline] at hr
    split at hr
    · exact absurd hr (by simp)
    · next hne =>
      injection hr with hr
      subst hr
      simpa using hne

/-- C2 witness: the empty container has no rounds and reports the error;
the synthetic one-round container succeeds with a non-empty rubric. -/
theorem C2_zero_rounds_failure_witness :
    runPipeline [] = Except.error "No rounds found in PDF; is this a supported export?" ∧
    [("Round 1: A", [("1", "a")])] ≠ ([] : List (String × List (String × String))) :=
  ⟨(C2_zero_rounds_failure []).1 (by decide),
   (C2_zero_rounds_failure ["(Round 1: A 1. q? a)"]).2 [("Round 1: A", [("1", "a")])] (by
     show runPipeline ["(Round 1: A 1. q? a)"] = _
     unfold runPipeline
     rw [show parse_rounds (extract_text ["(Round 1: A 1. q? a)"]) =
       [("Round 1: A", [("1", "a")])] from by decide]
     rfl)⟩


/-- C3, counterexample: on the body `1. Q1? A1 2. Q2? A2 1. Boilerplate? X`
the parser does not stop after two entries — the trailing "1." restarts the
numbering downward, so it is re-synchronized to and emitted. -/
theorem C3_counterexample :
    _parse_questions "1. Q1? A1 2. Q2? A2 1. Boilerplate? X" ≠ [("1", "A1"), ("2", "A2")] ∧
    ("1", "X") ∈ _parse_questions "1. Q1? A1 2. Q2? A2 1. Boilerplate? X" := by decide

/-- C3 (amended): on the body `1. Q1? A1 2. Q2? A2 1. Boilerplate? X` the
parser emits the two entries and then, because the trailing "1." is LOWER
than the expected number 3, re-synchronizes and emits it as a third entry
`("1", "X")`; only a number greater than expected stops the scan. -/
theorem C3_restart_resync :
    _parse_questions "1. Q1? A1 2. Q2? A2 1. Boilerplate? X" =
      [("1", "A1"), ("2", "A2"), ("1", "X")] := by decide

/-- C4, counterexample: in `a? b! c` the last mark is the `!`, so the claim
says the answer is the text after it, `c`; extraction actually returns the
text after the last `?`, namely `b! c`. -/
theorem C4_counterexample :
    extract_answer "a? b! c" = some "b! c" ∧ extract_answer "a? b! c" ≠ some "c" := by decide

/-- C4 (amended): answer extraction gives `?` priority over `!`: when the
trimmed fragment contains a `?`, the answer is the text after the LAST `?`
(no answer if that trailing text is empty, even when the fragment also has
a later `!`); only when it has no `?` at all is the text after the last
`!` used; with neither mark the whole trimmed fragment is the answer. -/
theorem C4_extract_answer_priority (s : String) (a b : List Char) :
    (pyStrip s.data = a ++ '?' :: b → '?' ∉ b →
      extract_answer s = if (pyStrip b).isEmpty then none else some ⟨pyStrip b⟩) ∧
    (pyStrip s.data = a ++ '!' :: b → '?' ∉ pyStrip s.data → '!' ∉ b →
      extract_answer s = if (pyStrip b).isEmpty then none else some ⟨pyStrip b⟩) ∧
    ('?' ∉ pyStrip s.data → '!' ∉ pyStrip s.data → pyStrip s.data ≠ [] →
      extract_answer s = some ⟨pyStrip s.data⟩) := by
  refine ⟨fun h hb => ?_, fun h hq hb => ?_, fun hq hb hne => ?_⟩
  · have hr : rfindPos '?' (a ++ '?' :: b) = some a.length := rfindPos_append a b hb
    have hd : (a ++ '?' :: b).drop (a.length + 1) = b :=
      @List.drop_append _ a ('?' :: b) 1
    simp [extract_answer, h, hr, hd]
  · rw [h] at hq
    have hr : rfindPos '!' (a ++ '!' :: b) = some a.length := rfindPos_append a b hb
    have hqn : rfindPos '?' (a ++ '!' :: b) = none := rfindPos_eq_none.mpr hq
    have hd : (a ++ '!' :: b).drop (a.length + 1) = b :=
      @List.drop_append _ a ('!' :: b) 1
    simp [extract_answer, h, hqn, hr, hd]
  · have hqn : rfindPos '?' (pyStrip s.data) = none := rfindPos_eq_none.mpr hq
    have hbn : rfindPos '!' (pyStrip s.data) = none := rfindPos_eq_none.mpr hb
    simp [extract_answer, hqn, hbn, List.isEmpty_eq_false.mpr hne]

/-- C4 witness: the amended rule applied to the concrete fragment
`a? b! c`, whose last question mark precedes a later bang. -/
theorem C4_extract_answer_priority_witness :
    extract_answer "a? b! c" =
      if (pyStrip [' ', 'b', '!', ' ', 'c']).isEmpty then none
      else some ⟨pyStrip [' ', 'b', '!', ' ', 'c']⟩ :=
  (C4_extract_answer_priority "a? b! c" ['a'] [' ', 'b', '!', ' ', 'c']).1
    (by decide) (by decide)

/-- C5, counterexample: the body `1. Q? |` produces the entry `("1", "")` —
the extracted answer `|` is non-empty, but cleanup strips the bar and
leaves an empty answer string. -/
theorem C5_counterexample :
    _parse_questions "1. Q? |" = [("1", "")] ∧
    ¬ ∀ p ∈ _parse_questions "1. Q? |", p.2 ≠ "" := by decide

/-- C5 (amended): every entry a round body produces carries the cleanup of a
NON-EMPTY extracted answer; non-emptiness is guaranteed before cleanup, not
after it (cleanup can strip an answer such as `|` down to empty). -/
theorem C5_entries_cleaned_nonempty (body : String) :
    ∀ p ∈ _parse_questions body, ∃ frag ans : String,
      extract_answer frag = some ans ∧ ans ≠ "" ∧ p.2 = clean_answer ans := by
  intro p hp
  simp only [_parse_questions] at hp
  refine @parseQGo_mem
    (fun p => ∃ frag ans : String,
      extract_answer frag = some ans ∧ ans ≠ "" ∧ p.2 = clean_answer ans)
    ?_ _ none [] (by simp) p hp
  intro numText frag ans heq
  exact ⟨⟨pyStrip frag.data⟩, ans, heq, extract_answer_ne_empty heq, rfl⟩

/-- C5 witness: concrete instance of the amended invariant. -/
theorem C5_entries_cleaned_nonempty_witness :
    ("1", "A") ∈ _parse_questions "1. Q? A" ∧
    ∃ frag ans : String, extract_answer frag = some ans ∧ ans ≠ "" ∧
      (("1", "A") : String × String).2 = clean_answer ans :=
  ⟨by decide, C5_entries_cleaned_nonempty "1. Q? A" ("1", "A") (by decide)⟩

/-- C6, counterexample: a body with a downward numbering restart produces
entry numbers 1, 2, 1 — not a non-strictly increasing sequence. -/
theorem C6_counterexample :
    _parse_questions "1. a? x 2. b? y 1. c? z" = [("1", "x"), ("2", "y"), ("1", "z")] ∧
    ¬ List.Chain' (fun p q => parseNat p.1 ≤ parseNat q.1)
        (_parse_questions "1. a? x 2. b? y 1. c? z") := by
  have h : _parse_questions "1. a? x 2. b? y 1. c? z" =
      [("1", "x"), ("2", "y"), ("1", "z")] := by decide
  refine ⟨h, ?_⟩
  rw [h]
  intro hc
  have h2 := (List.chain'_cons.mp (List.chain'_cons.mp hc).2).1
  revert h2
  decide

/-- C6 (amended): for every round body, consecutive emitted entry numbers
rise by at most one (an accepted entry sets the expectation to number + 1,
and a later entry is accepted only at or below the expectation); downward
re-synchronizations may make the sequence decrease. -/
theorem C6_entry_numbers_step (body : String) :
    List.Chain' (fun p q => parseNat q.1 ≤ parseNat p.1 + 1) (_parse_questions body) := by
  simp only [_parse_questions]
  exact parseQGo_chain _ none [] List.chain'_nil
    (fun e p he _ => Option.noConfusion he) (fun _ => rfl)

/-- C7: inside a literal-string token, one tokenizer iteration decodes each
simple escape to its single character (consuming 2 source characters);
decodes a backslash followed by 1–3 octal digits greedily (stopping at the
first non-octal digit or after 3 digits) to the character with that base-8
code, so that `\101` yields `A`; and drops the backslash before any other
character (e.g. `\9` becomes `9`). -/
theorem C7_escape_decoding (fuel depth : Nat) (acc rest : List Char) (c d1 d2 d3 : Char) :
    (scanToken (fuel + 1) ('\\' :: 'n' :: rest) depth acc =
      scanToken fuel rest depth ('\n' :: acc)) ∧
    (scanToken (fuel + 1) ('\\' :: 'r' :: rest) depth acc =
      scanToken fuel rest depth ('\r' :: acc)) ∧
    (scanToken (fuel + 1) ('\\' :: 't' :: rest) depth acc =
      scanToken fuel rest depth ('\t' :: acc)) ∧
    (scanToken (fuel + 1) ('\\' :: 'b' :: rest) depth acc =
      scanToken fuel rest depth ('\x08' :: acc)) ∧
    (scanToken (fuel + 1) ('\\' :: 'f' :: rest) depth acc =
      scanToken fuel rest depth ('\x0c' :: acc)) ∧
    (scanToken (fuel + 1) ('\\' :: '(' :: rest) depth acc =
      scanToken fuel rest depth ('(' :: acc)) ∧
    (scanToken (fuel + 1) ('\\' :: ')' :: rest) depth acc =
      scanToken fuel rest depth (')' :: acc)) ∧
    (scanToken (fuel + 1) ('\\' :: '\\' :: rest) depth acc =
      scanToken fuel rest depth ('\\' :: acc)) ∧
    (isOctalDigit d1 = true → isOctalDigit d2 = true → isOctalDigit d3 = true →
      scanToken (fuel + 1) ('\\' :: d1 :: d2 :: d3 :: rest) depth acc =
        scanToken fuel rest depth
          (Char.ofNat (octVal d1 * 64 + octVal d2 * 8 + octVal d3) :: acc)) ∧
    (isOctalDigit d1 = true → isOctalDigit d2 = true → isOctalDigit d3 = false →
      scanToken (fuel + 1) ('\\' :: d1 :: d2 :: d3 :: rest) depth acc =
        scanToken fuel (d3 :: rest) depth (Char.ofNat (octVal d1 * 8 + octVal d2) :: acc)) ∧
    (isOctalDigit d1 = true → isOctalDigit d2 = false →
      scanToken (fuel + 1) ('\\' :: d1 :: d2 :: rest) depth acc =
        scanToken fuel (d2 :: rest) depth (Char.ofNat (octVal d1) :: acc)) ∧
    (scanToken (fuel + 1) ('\\' :: '1' :: '0' :: '1' :: rest) depth acc =
      scanToken fuel rest depth ('A' :: acc)) ∧
    (escMap c = none → isOctalDigit c = false →
      scanToken (fuel + 1) ('\\' :: c :: rest) depth acc =
        scanToken fuel rest depth (c :: acc)) ∧
    (scanToken (fuel + 1) ('\\' :: '9' :: rest) depth acc =
      scanToken fuel rest depth ('9' :: acc)) := by
  refine ⟨rfl, rfl, rfl, rfl, rfl, rfl, rfl, rfl, ?_, ?_, ?_, rfl, ?_, rfl⟩
  · intro h1 h2 h3
    simp [scanToken, escMap_eq_none_of_octal h1, h1, h2, h3]
  · intro h1 h2 h3
    simp [scanToken, escMap_eq_none_of_octal h1, h1, h2, h3]
  · intro h1 h2
    simp [scanToken, escMap_eq_none_of_octal h1, h1, h2]
  · intro h1 h2
    simp [scanToken, h1, h2]

/-- C7 witness: the escape rules applied at concrete inputs — a 3-digit
octal run, a 2-digit run stopped by a non-octal digit, a 1-digit run, and
the dropped-backslash fallback for `\9`. -/
theorem C7_escape_decoding_witness :
    scanToken 1 ['\\', '1', '0', '1'] 1 [] = scanToken 0 [] 1 ['A'] ∧
    scanToken 1 ['\\', '1', '0', '9'] 1 [] = scanToken 0 ['9'] 1 [Char.ofNat 8] ∧
    scanToken 1 ['\\', '1', 'x'] 1 [] = scanToken 0 ['x'] 1 [Char.ofNat 1] ∧
    scanToken 1 ['\\', '9'] 1 [] = scanToken 0 [] 1 ['9'] := by
  refine ⟨?_, ?_, ?_, ?_⟩
  · exact (C7_escape_decoding 0 1 [] [] '9' '1' '0' '1').2.2.2.2.2.2.2.2.1
      (by decide) (by decide) (by decide)
  · exact (C7_escape_decoding 0 1 [] [] '9' '1' '0' '9').2.2.2.2.2.2.2.2.2.1
      (by decide) (by decide) (by decide)
  · exact (C7_escape_decoding 0 1 [] [] '9' '1' 'x' '0').2.2.2.2.2.2.2.2.2.2.1
      (by decide) (by decide)
  · exact (C7_escape_decoding 0 1 [] [] '9' '1' '0' '1').2.2.2.2.2.2.2.2.2.2.2.2.1
      (by decide) (by decide)

/-- C8: the tokenizer is total and tolerant of malformed input — at the end
of the block it emits the accumulated text (even at non-zero depth), the
remainder it returns is never longer than its input, any two fuel values
covering the input length give the same result (each iteration consumes at
least one character, so the scan terminates), and a token whose depth never
reaches zero, such as the unclosed `(abc`, still yields `"abc"`. -/
theorem C8_tokenizer_total :
    (∀ fuel depth : Nat, ∀ acc : List Char,
      scanToken fuel [] depth acc = (⟨acc.reverse⟩, [])) ∧
    (∀ fuel : Nat, ∀ content : List Char, ∀ depth : Nat, ∀ acc : List Char,
      (scanToken fuel content depth acc).2.length ≤ content.length) ∧
    (∀ f g : Nat, ∀ content : List Char, ∀ depth : Nat, ∀ acc : List Char,
      content.length ≤ f → content.length ≤ g →
      scanToken f content depth acc = scanToken g content depth acc) ∧
    _strings_from_stream "(abc".data = ["abc"] :=
  ⟨scanToken_nil, scanToken_length_le, scanToken_fuel_congr, by decide⟩

/-- C8 witness: the fuel-independence and end-of-input clauses applied at
concrete inputs. -/
theorem C8_tokenizer_total_witness :
    scanToken 5 "ab".data 1 [] = scanToken 7 "ab".data 1 [] ∧
    scanToken 3 [] 2 ['x'] = (⟨['x']⟩, []) :=
  ⟨C8_tokenizer_total.2.2.1 5 7 "ab".data 1 [] (by decide) (by decide),
   C8_tokenizer_total.1 3 2 ['x']⟩

/-- C9: the document sanitization is idempotent — sanitizing the output of
the sanitizer changes nothing: the output is already printable-only, free
of CR/LF and of the locale artifact, whitespace-collapsed and trimmed, and
each sanitization stage is the identity on such text. -/
theorem C9_sanitize_idempotent (s : String) : sanitize (sanitize s) = sanitize s := by
  have hg1 : ∀ c : Char, (if c == '\r' then ' ' else c) = c ∨
      (if c == '\r' then ' ' else c) = ' ' := by
    intro c
    by_cases h : (c == '\r') = true
    · rw [if_pos h]
      exact Or.inr rfl
    · rw [if_neg h]
      exact Or.inl rfl
  have hg2 : ∀ c : Char, (if c == '\n' then ' ' else c) = c ∨
      (if c == '\n' then ' ' else c) = ' ' := by
    intro c
    by_cases h : (c == '\n') = true
    · rw [if_pos h]
      exact Or.inr rfl
    · rw [if_neg h]
      exact Or.inl rfl
  have hTeq : (sanitize s).data = pyStrip (collapseWs
      (((replaceEnUS (s.data.filter keepPrintable)).map fun c => if c == '\r' then ' ' else c).map
        fun c => if c == '\n' then ' ' else c) false) := rfl
  have hL4 : ∀ c ∈ ((replaceEnUS (s.data.filter keepPrintable)).map
      fun c => if c == '\r' then ' ' else c).map fun c => if c == '\n' then ' ' else c,
      keepPrintable c = true ∧ c ≠ '\r' ∧ c ≠ '\n' := by
    intro c hc
    obtain ⟨b, hb, rfl⟩ := List.mem_map.mp hc
    obtain ⟨a, ha, rfl⟩ := List.mem_map.mp hb
    have hka : keepPrintable a = true := by
      rcases mem_replaceEnUS ha with rfl | ha2
      · decide
      · exact (List.mem_filter.mp ha2).2
    refine ⟨?_, ?_, ?_⟩
    · rcases hg2 (if a == '\r' then ' ' else a) with h2 | h2
      · rw [h2]
        rcases hg1 a with h | h
        · rw [h]
          exact hka
        · rw [h]
          decide
      · rw [h2]
        decide
    · by_cases han : ((if a == '\r' then ' ' else a) == '\n') = true
      · rw [if_pos han]
        decide
      · rw [if_neg han]
        by_cases har : (a == '\r') = true
        · rw [if_pos har]
          decide
        · rw [if_neg har]
          simpa using har
    · by_cases han : ((if a == '\r' then ' ' else a) == '\n') = true
      · rw [if_pos han]
        decide
      · rw [if_neg han]
        simpa using han
  have hfix : sanitize ⟨(sanitize s).data⟩ = ⟨(sanitize s).data⟩ := by
    apply sanitize_pass_eq_self
    · intro c hc
      rw [hTeq] at hc
      rcases mem_collapseWs (mem_pyStrip hc) with rfl | ⟨h1, _⟩
      · decide
      · exact (hL4 c h1).1
    · intro c hc
      rw [hTeq] at hc
      rcases mem_collapseWs (mem_pyStrip hc) with rfl | ⟨h1, _⟩
      · decide
      · exact (hL4 c h1).2.1
    · intro c hc
      rw [hTeq] at hc
      rcases mem_collapseWs (mem_pyStrip hc) with rfl | ⟨h1, _⟩
      · decide
      · exact (hL4 c h1).2.2
    · intro c hc hws
      rw [hTeq] at hc
      rcases mem_collapseWs (mem_pyStrip hc) with rfl | ⟨_, h2⟩
      · rfl
      · simp [h2] at hws
    · rw [hTeq]
      exact hasEnUS_pyStrip (hasEnUS_collapseWs false
        (hasEnUS_map hg2 (hasEnUS_map hg1 (hasEnUS_replaceEnUS _))))
    · rw [hTeq]
      exact chain'_pyStrip (collapseWs_chain _ false)
    · intro c hc
      rw [hTeq] at hc
      exact pyStrip_head hc
    · intro c hc
      rw [hTeq] at hc
      exact pyStrip_getLast hc
  calc sanitize (sanitize s) = sanitize ⟨(sanitize s).data⟩ := rfl
    _ = ⟨(sanitize s).data⟩ := hfix
    _ = sanitize s := rfl

/-- C10: the round parser never emits a round with an empty entry list —
sections whose body yields no entries are dropped entirely. -/
theorem C10_no_empty_rounds (text : String) : ∀ r ∈ parse_rounds text, r.2 ≠ [] := by
  intro r hr
  simp only [parse_rounds] at hr
  rw [List.mem_append] at hr
  rcases hr with hr | hr
  · rw [List.mem_filterMap] at hr
    obtain ⟨sec, -, hf⟩ := hr
    split at hf
    · exact absurd hf (by simp)
    · split at hf
      · exact absurd hf (by simp)
      · next hne =>
        injection hf with hf
        subst hf
        simpa using hne
  · split at hr
    · simp at hr
    · split at hr
      · simp at hr
      · split at hr
        · simp at hr
        · next hne =>
          rw [List.mem_singleton] at hr
          subst hr
          simpa using hne

/-- C10 witness: concrete instance of the no-empty-round invariant. -/
theorem C10_no_empty_rounds_witness :
    ("Round 1: A", [("1", "a")]) ∈ parse_rounds "Round 1: A 1. q? a" ∧
    (("Round 1: A", [("1", "a")]) : String × List (String × String)).2 ≠ [] :=
  ⟨by decide, C10_no_empty_rounds "Round 1: A 1. q? a" ("Round 1: A", [("1", "a")]) (by decide)⟩

example : _strings_from_stream "(abc".data = ["abc"] := by decide
example : _strings_from_stream "x(a(b)c) (d\\101e)".data = ["a(b)c", "dAe"] := by decide
example : _strings_from_stream "(a\\9b\\nc)".data = ["a9b\nc"] := by decide
example : sanitize "  a  ben-USc \r d  " = "a b c d" := by decide
example : extract_answer "What is 2+2? 4!" = some "4!" := by decide
example : extract_answer "a? b! c" = some "b! c" := by decide
example : extract_answer "Answer with no question mark" = some "Answer with no question mark" := by
  decide
example : clean_answer "1,000 / 2,500" = "1,000 / 2,500" := by decide
example : clean_answer "Paris| (note: accept anything)" = "Paris" := by decide
example : _parse_questions "1. Q1? A1 2. Q2? A2 3. Q3? A3" =
    [("1", "A1"), ("2", "A2"), ("3", "A3")] := by decide
example : _parse_questions "1. Q1? A1 2. Q2? A2 1. Boilerplate? X" =
    [("1", "A1"), ("2", "A2"), ("1", "X")] := by decide
example : _parse_questions "1. Q? |" = [("1", "")] := by decide
example :
    parse_rounds "Round 1: Warmup 1. What is 2+2? 4! 2. Capital of France? Paris|" =
      [("Round 1: Warmup", [("1", "4!"), ("2", "Paris")])] := by decide
example :
    extract_text ["(Round 1: Warmup 1. What is 2+2? 4! 2. Capital of France? Paris|)"] =
      "Round 1: Warmup 1. What is 2+2? 4! 2. Capital of France? Paris|" := by decide
example : parse_rounds "nothing here" = [] := by decide
example :
    parse_rounds "Round 2: A 1. q? a Tiebreakers 1. t? b" =
      [("Round 2: A", [("1", "a")]), ("Tiebreakers", [("1", "b")])] := by decide
